import Mathlib

/-!
Verification of the `intee` locale-resolution library (`@intee/core`).

The embedding below translates the TypeScript sources:
* `src/index.ts` (`Tag`, `tag`, `Internationalization.resolve`),
* `src/helpers/match.ts` (predicate combinators),
* `src/helpers/load.ts` (`pick`, `map`, `memoize`).

Design choices of the shallow embedding:
* JavaScript numbers are modelled by `ℚ` (the claims under scrutiny involve
  only exact arithmetic: comparisons, absolute value, small means).
* A predicate result `number | boolean` is `PredResult`; `Number(x)` is
  `toNumber` (booleans coerce `true ↦ 1`, `false ↦ 0`).
* Exceptions/rejections are `Except E`: a source's `loader()` is a value of
  `Except E T` (its unique outcome when invoked), and a predicate that may
  throw during scoring is `String → Except E PredResult`.
* `RegExp.prototype.test` carries the mutable `lastIndex` of the regexp
  object, so `matches` is modelled with explicit state passing (a `Nat`
  for `lastIndex`), while the remaining combinators close only over
  immutable data.
-/

namespace Intee

/-- Result of a `Predicate`: the TypeScript union `number | boolean`. -/
inductive PredResult where
  | num : ℚ → PredResult
  | bool : Bool → PredResult
deriving DecidableEq

/-- JavaScript `Number(...)` on a `number | boolean` value:
`true → 1`, `false → 0`, numbers pass through unchanged. -/
def toNumber : PredResult → ℚ
  | .num q => q
  | .bool b => if b then 1 else 0

/-- `type Predicate = (tag: string) => number | boolean` from
`src/helpers/match.ts` — the pure combinators below inhabit it. -/
def Predicate : Type := String → PredResult

/-- `interface Source` from `src/resource.ts`: a locale tag, a scoring
predicate (which may throw while scoring), and a loader whose single
invocation yields `Except E T` (`.error` models a throw/rejection). -/
structure Source (E T : Type) where
  tag : String
  predicate : String → Except E PredResult
  loader : Except E T

/-- A translation payload together with the locale tag attached by `tag`
(the symbol-keyed merge is modelled separately by `tagObj` below; at the
resolver level only the payload and the attached tag value matter). -/
structure Tagged (T : Type) where
  value : T
  tag : String
deriving DecidableEq

/-- `tag(t, v)` from `src/index.ts`: attach the locale tag `v` to `t`. -/
def tag {T : Type} (t : T) (v : String) : Tagged T := ⟨t, v⟩

/-- The `Internationalization` class: a mandatory fallback source (whose
loader is `Sync<T>`, i.e. does not suspend) followed by further sources. -/
structure Internationalization (E T : Type) where
  fallback : Source E T
  others : List (Source E T)

/-- `this.sources = [fallback, ...others]` from the constructor. -/
def Internationalization.sources {E T : Type} (R : Internationalization E T) :
    List (Source E T) :=
  R.fallback :: R.others

/-- The mutable locals of `resolve`: `let max = 0; let source = this.fallback`. -/
structure Scan (E T : Type) where
  max : ℚ
  source : Source E T

/-- The inner loop of `resolve`:
`for (const s of this.sources) { const score = Math.abs(Number(s.predicate(locale))); if (score > max) {max = score; source = s} }`. -/
def scanSources {E T : Type} (locale : String) :
    List (Source E T) → Scan E T → Except E (Scan E T)
  | [], st => .ok st
  | s :: ss, st =>
      match s.predicate locale with
      | .error e => .error e
      | .ok r =>
          let score := |toNumber r|
          if score > st.max then scanSources locale ss ⟨score, s⟩
          else scanSources locale ss st

/-- The outer loop of `resolve`: scan each preferred locale in order and
`if (max > 0) break` after a locale's scan. -/
def scanLocales {E T : Type} (srcs : List (Source E T)) :
    List String → Scan E T → Except E (Scan E T)
  | [], st => .ok st
  | l :: ls, st =>
      match scanSources l srcs st with
      | .error e => .error e
      | .ok st' => if st'.max > 0 then .ok st' else scanLocales srcs ls st'

/-- `tag(await source.loader(), source.tag)`: load the selected source and
attach its tag (a loader throw/rejection propagates). -/
def loadTagged {E T : Type} (s : Source E T) : Except E (Tagged T) :=
  match s.loader with
  | .error e => .error e
  | .ok t => .ok (tag t s.tag)

/-- `Internationalization.resolve(...locales)` from `src/index.ts`. -/
def Internationalization.resolve {E T : Type} (R : Internationalization E T)
    (locales : List String) : Except E (Tagged T) :=
  match scanLocales R.sources locales ⟨0, R.fallback⟩ with
  | .error e => .error e
  | .ok st => loadTagged st.source

/-! ## Predicate combinators (`src/helpers/match.ts`)

All combinators except `matches` close only over immutable data, so they
are plain functions. -/

/-- `startsWith(prefix)(tag) = tag.startsWith(prefix)` — ordinal prefix
test, modelled on the string's character sequence. -/
def startsWith (pre : String) : Predicate :=
  fun t => .bool (pre.data.isPrefixOf t.data)

/-- `endsWith(suffix)(tag) = tag.endsWith(suffix)` — ordinal suffix test,
modelled on the string's character sequence. -/
def endsWith (suf : String) : Predicate :=
  fun t => .bool (suf.data.isSuffixOf t.data)

/-- `is(expected)(tag) = (expected === tag)`. -/
def is (expected : String) : Predicate := fun t => .bool (expected == t)

/-- `isOneOf(...candidates)(tag) = candidates.includes(tag)`. -/
def isOneOf (candidates : List String) : Predicate :=
  fun t => .bool (candidates.contains t)

/-- `weighted(factor, predicate)(tag) = Number(predicate(tag)) * factor`. -/
def weighted (factor : ℚ) (p : Predicate) : Predicate :=
  fun t => .num (toNumber (p t) * factor)

/-- `mean(...predicates)(tag) = predicates.reduce((sum, p) => sum + Number(p(tag)), 0) / predicates.length`.
(For an empty list JavaScript yields `NaN`; the spec declares that case
undefined behaviour, and the claims below only quantify over non-empty
lists.) -/
def mean (predicates : List Predicate) : Predicate := fun t =>
  .num ((predicates.foldl (fun sum p => sum + toNumber (p t)) 0) /
    (predicates.length : ℚ))

/-! ## `matches` and the JavaScript `RegExp` state (`src/helpers/match.ts`)

`matches = (pattern) => pattern.test.bind(pattern)` hands out the
`test` method bound to the regexp object itself.  Per the ECMAScript
specification, `RegExp.prototype.test` reads and writes the object's
mutable `lastIndex` property whenever the regexp carries the `g`
(global) or `y` (sticky) flag.  We model the pattern language by literal
substring patterns (enough to instantiate the claims), the flags
explicitly, and `lastIndex` by explicit state passing. -/

/-- A regular-expression pattern; `lit w` is the pattern matching the
literal character sequence `w` (e.g. `/en/` is `lit "en"`). -/
inductive RePat where
  | lit : String → RePat

/-- A JavaScript `RegExp` object minus its mutable `lastIndex`. -/
structure RegExp where
  pat : RePat
  flagGlobal : Bool
  flagSticky : Bool

/-- First index `j ≥ i` (absolute index `i` names the head of the scanned
suffix) at which `needle` occurs in the scanned suffix. -/
def litFindAux (needle : List Char) : List Char → Nat → Option Nat
  | [], i => if needle.isEmpty then some i else none
  | c :: rest, i =>
      if needle.isPrefixOf (c :: rest) then some i
      else litFindAux needle rest (i + 1)

/-- ECMAScript `RegExpExec` search: from `start`, return the matched
span `(begin, end)` or `none`.  A sticky pattern must match at exactly
`start`; a `start` beyond the string never matches. -/
def RegExp.search (re : RegExp) (s : List Char) (start : Nat) :
    Option (Nat × Nat) :=
  if s.length < start then none
  else
    match re.pat with
    | .lit w =>
        let needle := w.data
        if re.flagSticky then
          if needle.isPrefixOf (s.drop start) then
            some (start, start + needle.length)
          else none
        else
          (litFindAux needle (s.drop start) start).map
            fun j => (j, j + needle.length)

/-- `RegExp.prototype.test` with its `lastIndex` threading: global/sticky
regexps start the search at `lastIndex`, advance it past a match and
reset it to `0` on failure; other regexps always search from `0` and
leave `lastIndex` untouched. -/
def RegExp.test (re : RegExp) (s : String) (lastIndex : Nat) : Bool × Nat :=
  let g := re.flagGlobal || re.flagSticky
  let start := if g then lastIndex else 0
  match re.search s.data start with
  | some me => (true, if g then me.2 else lastIndex)
  | none => (false, if g then 0 else lastIndex)

/-- A predicate evaluated with the regexp-state (`lastIndex`) threaded
through: the observable behaviour of one call to a combinator-produced
predicate. -/
def EffPredicate : Type := String → Nat → PredResult × Nat

/-- The combinators that close only over immutable data read and write
no state. -/
def liftPure (p : Predicate) : EffPredicate := fun t st => (p t, st)

/-- `matches(pattern)` from `src/helpers/match.ts`: the bound `test`
method of the (stateful) regexp object. -/
def «matches» (pattern : RegExp) : EffPredicate := fun t st =>
  let b := pattern.test t st
  (.bool b.1, b.2)

/-- A predicate evaluation is deterministic and side-effect free when it
leaves the state unchanged and its result does not depend on the state. -/
def Stateless (p : EffPredicate) : Prop :=
  ∀ t st, (p t st).2 = st ∧ ∀ st', (p t st).1 = (p t st').1

/-! ## Loader combinators (`src/helpers/load.ts`)

`memoize` is the only stateful one:
`let promise; return () => (promise ||= loader())`.
A `PromiseLike` is an object, hence truthy, so `||=` invokes `loader`
exactly when the cache is still empty.  We model a promise object by its
identity (`pid`) plus its eventual outcome (`Except`), the cache cell by
`Option (JSPromise E T)`, and count underlying-loader invocations; the
`n`-th invocation of the wrapped loader yields `loader n`.  JavaScript
runs calls on one thread, so "concurrent" calls are consecutive events
of the trace; calls arriving before the first promise settles are simply
later entries of the trace. -/

/-- A promise object: an identity plus the outcome it settles with. -/
structure JSPromise (E T : Type) where
  pid : Nat
  outcome : Except E T

/-- One call to the memoized loader: `(promise ||= loader())`, together
with the count of underlying-loader invocations. -/
def memoizeStep {E T : Type} (loader : Nat → JSPromise E T) :
    Option (JSPromise E T) × Nat → JSPromise E T × (Option (JSPromise E T) × Nat)
  | (some p, n) => (p, (some p, n))
  | (none, n) => (loader n, (some (loader n), n + 1))

/-- The results and final state of `k` successive calls to the memoized
loader, starting from the empty cache. -/
def memoizeTrace {E T : Type} (loader : Nat → JSPromise E T) :
    Nat → List (JSPromise E T) × (Option (JSPromise E T) × Nat)
  | 0 => ([], (none, 0))
  | k + 1 =>
      let done := memoizeTrace loader k
      let call := memoizeStep loader done.2
      (done.1 ++ [call.1], call.2)

/-! ## Symbol-keyed tagging (`src/index.ts`)

`Tag` is a `unique symbol` and `tag(t, v) = Object.assign({}, t, {[Tag]: v})`.
An object's keys are either plain strings or the `Tag` symbol; the symbol
is a distinct kind of key, so it can never equal a string key. -/

/-- A property key: a plain string, or the unique `Internationalization.Tag`
symbol. -/
inductive Key where
  | str : String → Key
  | tagSym : Key
deriving DecidableEq

/-- A JavaScript object as a partial map from keys to values. -/
def JSObject (V : Type) : Type := Key → Option V

/-- `tag(t, v) = Object.assign({}, t, {[Tag]: v})` at the object level:
a fresh object with all of `t`'s properties plus the symbol-keyed tag. -/
def tagObj {V : Type} (t : JSObject V) (v : V) : JSObject V :=
  fun k => if k = Key.tagSym then some v else t k

/-- `t[Internationalization.Tag]`: read the reserved tag accessor. -/
def readTag {V : Type} (o : JSObject V) : Option V := o Key.tagSym

/-- An ordinary translation payload: every present key is a plain string. -/
def ordinaryPayload {V : Type} (t : JSObject V) : Prop :=
  ∀ k, (t k).isSome → ∃ s, k = Key.str s

/-! ## Sign variants (for the absolute-value scoring claim)

Replacing a predicate's return value `x` by `-x` must not change
selection, because `resolve` compares `Math.abs(Number(...))`. -/

/-- Flip the sign of a predicate result's numeric coercion. -/
def negResult (r : PredResult) : PredResult := .num (-(toNumber r))

/-- `s'` is `s` with the same tag and loader, and either the same
predicate or the predicate returning the negated number. -/
def SignVariant {E T : Type} (s s' : Source E T) : Prop :=
  s'.tag = s.tag ∧ s'.loader = s.loader ∧
    (s'.predicate = s.predicate ∨
      s'.predicate = fun L => (s.predicate L).map negResult)

/-- Relation between two scan outcomes: same error, or states with equal
running maxima and sign-variant selected sources. -/
def ScanRel {E T : Type} (u u' : Except E (Scan E T)) : Prop :=
  (∃ e, u = .error e ∧ u' = .error e) ∨
    ∃ a b, u = .ok a ∧ u' = .ok b ∧ b.max = a.max ∧ SignVariant a.source b.source

/-! ## Concrete fixtures (used by the witnesses) -/

/-- Lift a pure combinator-built predicate to a non-throwing scoring
function, as happens when the caller's predicate never throws. -/
def pureP (p : Predicate) : String → Except String PredResult :=
  fun t => .ok (p t)

/-- The `en-US` fallback source of the README quick-start example. -/
def enUS : Source String String :=
  ⟨"en-US", pureP (mean [startsWith "en", startsWith "en-US"]), .ok "Hello!"⟩

/-- The `zh-CN` source of the README quick-start example. -/
def zhCN : Source String String :=
  ⟨"zh-CN", pureP (mean [startsWith "zh", startsWith "zh-CN"]), .ok "Ni hao!"⟩

/-- The README quick-start resolver. -/
def demo : Internationalization String String := ⟨enUS, [zhCN]⟩

/-- A source scoring `1` on any locale starting with `"en"`. -/
def tieA : Source String String := ⟨"A", pureP (startsWith "en"), .ok "from A"⟩

/-- A second source with the same predicate, registered after `tieA`. -/
def tieB : Source String String := ⟨"B", pureP (startsWith "en"), .ok "from B"⟩

/-- A resolver whose two sources tie on every `"en"`-prefixed locale. -/
def tieDemo : Internationalization String String := ⟨tieA, [tieB]⟩

/-- `tieB` with its predicate's sign flipped. -/
def tieBNeg : Source String String :=
  ⟨"B", fun L => (tieB.predicate L).map negResult, .ok "from B"⟩

/-- `tieDemo` with the second source's predicate's sign flipped. -/
def tieDemoNeg : Internationalization String String := ⟨tieA, [tieBNeg]⟩

/-- A source whose predicate throws while scoring. -/
def badPredSrc : Source String String :=
  ⟨"P", fun _ => .error "predicate boom", .ok "never"⟩

/-- A resolver whose (only) source throws while scoring. -/
def badPredDemo : Internationalization String String := ⟨badPredSrc, []⟩

/-- A source that matches `"en"`-prefixed locales but whose loader
rejects. -/
def badLoadSrc : Source String String :=
  ⟨"L", pureP (startsWith "en"), .error "loader boom"⟩

/-- A resolver whose winning source's loader rejects. -/
def badLoadDemo : Internationalization String String := ⟨badLoadSrc, []⟩

/-- A loader whose `n`-th invocation yields a fresh fulfilled promise. -/
def okLoader : Nat → JSPromise String Nat := fun n => ⟨n, .ok (100 + n)⟩

/-- A loader whose every invocation yields a rejected promise. -/
def badLoader : Nat → JSPromise String Nat := fun n => ⟨n, .error "network down"⟩

/-- A one-field translation payload `{hello: "Hello!"}`. -/
def helloPayload : JSObject String := fun k =>
  match k with
  | .str s => if s = "hello" then some "Hello!" else none
  | .tagSym => none

/-! ## Lemmas about the source scan -/

theorem scanSources_cons {E T : Type} (locale : String) (s : Source E T)
    (ss : List (Source E T)) (st : Scan E T) :
    scanSources locale (s :: ss) st =
      match s.predicate locale with
      | .error e => .error e
      | .ok r =>
          if |toNumber r| > st.max then scanSources locale ss ⟨|toNumber r|, s⟩
          else scanSources locale ss st := rfl

theorem scanLocales_cons {E T : Type} (srcs : List (Source E T)) (l : String)
    (ls : List String) (st : Scan E T) :
    scanLocales srcs (l :: ls) st =
      match scanSources l srcs st with
      | .error e => .error e
      | .ok st' => if st'.max > 0 then .ok st' else scanLocales srcs ls st' :=
  rfl

theorem scanSources_append {E T : Type} (locale : String)
    (as bs : List (Source E T)) (st : Scan E T) :
    scanSources locale (as ++ bs) st =
      match scanSources locale as st with
      | .error e => .error e
      | .ok st' => scanSources locale bs st' := by
  induction as generalizing st with
  | nil => rfl
  | cons s ss ih =>
      show scanSources locale (s :: (ss ++ bs)) st = _
      rw [scanSources_cons, scanSources_cons]
      cases hp : s.predicate locale with
      | error e => rfl
      | ok r =>
          dsimp only
          by_cases hc : |toNumber r| > st.max
          · rw [if_pos hc, if_pos hc]; exact ih _
          · rw [if_neg hc, if_neg hc]; exact ih _

theorem scanSources_no_update {E T : Type} (locale : String)
    (srcs : List (Source E T)) (st : Scan E T)
    (h : ∀ s ∈ srcs, ∃ r, s.predicate locale = .ok r ∧ |toNumber r| ≤ st.max) :
    scanSources locale srcs st = .ok st := by
  induction srcs with
  | nil => rfl
  | cons s ss ih =>
      obtain ⟨r, hr, hle⟩ := h s (List.mem_cons_self s ss)
      rw [scanSources_cons]
      simp only [hr]
      rw [if_neg (not_lt.mpr hle)]
      exact ih fun s' hs' => h s' (List.mem_cons_of_mem s hs')

theorem scanSources_bound {E T : Type} (locale : String)
    (srcs : List (Source E T)) (B : ℚ)
    (h : ∀ s ∈ srcs, ∃ r, s.predicate locale = .ok r ∧ |toNumber r| < B) :
    ∀ st : Scan E T, st.max < B →
      ∃ st', scanSources locale srcs st = .ok st' ∧ st'.max < B := by
  induction srcs with
  | nil => exact fun st hst => ⟨st, rfl, hst⟩
  | cons s ss ih =>
      intro st hst
      obtain ⟨r, hr, hlt⟩ := h s (List.mem_cons_self s ss)
      have ih' := ih fun s' hs' => h s' (List.mem_cons_of_mem s hs')
      rw [scanSources_cons]
      simp only [hr]
      by_cases hc : |toNumber r| > st.max
      · rw [if_pos hc]; exact ih' ⟨|toNumber r|, s⟩ hlt
      · rw [if_neg hc]; exact ih' st hst

theorem scanSources_allOk {E T : Type} (locale : String)
    (srcs : List (Source E T))
    (h : ∀ s ∈ srcs, ∃ r, s.predicate locale = .ok r) :
    ∀ st : Scan E T,
      ∃ st', scanSources locale srcs st = .ok st' ∧ st.max ≤ st'.max ∧
        ∀ s ∈ srcs, ∀ r, s.predicate locale = .ok r → |toNumber r| ≤ st'.max := by
  induction srcs with
  | nil =>
      exact fun st => ⟨st, rfl, le_refl _, fun s hs => absurd hs (List.not_mem_nil s)⟩
  | cons s ss ih =>
      intro st
      obtain ⟨r, hr⟩ := h s (List.mem_cons_self s ss)
      have ih' := ih fun s' hs' => h s' (List.mem_cons_of_mem s hs')
      by_cases hc : |toNumber r| > st.max
      · obtain ⟨st', hscan, hmono, hbound⟩ := ih' ⟨|toNumber r|, s⟩
        refine ⟨st', ?_, le_trans (le_of_lt hc) hmono, ?_⟩
        · rw [scanSources_cons]; simp only [hr]; rw [if_pos hc]; exact hscan
        · intro s₂ hs₂ r₂ hr₂
          rcases List.mem_cons.mp hs₂ with h₂ | h₂
          · subst h₂
            have : r₂ = r := Except.ok.inj (hr₂.symm.trans hr)
            subst this
            exact hmono
          · exact hbound s₂ h₂ r₂ hr₂
      · obtain ⟨st', hscan, hmono, hbound⟩ := ih' st
        refine ⟨st', ?_, hmono, ?_⟩
        · rw [scanSources_cons]; simp only [hr]; rw [if_neg hc]; exact hscan
        · intro s₂ hs₂ r₂ hr₂
          rcases List.mem_cons.mp hs₂ with h₂ | h₂
          · subst h₂
            have : r₂ = r := Except.ok.inj (hr₂.symm.trans hr)
            subst this
            exact le_trans (not_lt.mp hc) hmono
          · exact hbound s₂ h₂ r₂ hr₂

theorem scanLocales_singleton {E T : Type} (srcs : List (Source E T))
    (L : String) (st : Scan E T) :
    scanLocales srcs [L] st = scanSources L srcs st := by
  rw [scanLocales_cons]
  cases h : scanSources L srcs st with
  | error e => rfl
  | ok st' =>
      dsimp only
      by_cases hc : st'.max > 0
      · rw [if_pos hc]
      · rw [if_neg hc]; rfl

theorem scanLocales_zeros {E T : Type} (srcs : List (Source E T))
    (pre rest : List String)
    (h : ∀ L ∈ pre, ∀ s ∈ srcs, ∃ r, s.predicate L = .ok r ∧ |toNumber r| = 0) :
    ∀ st : Scan E T, st.max = 0 →
      scanLocales srcs (pre ++ rest) st = scanLocales srcs rest st := by
  induction pre with
  | nil => exact fun st _ => rfl
  | cons L ls ih =>
      intro st hm
      have h0 : scanSources L srcs st = .ok st :=
        scanSources_no_update L srcs st fun s hs => by
          obtain ⟨r, hr, hz⟩ := h L (List.mem_cons_self L ls) s hs
          exact ⟨r, hr, by rw [hz, hm]⟩
      show scanLocales srcs (L :: (ls ++ rest)) st = _
      rw [scanLocales_cons]
      simp only [h0]
      rw [hm, if_neg (lt_irrefl (0 : ℚ))]
      exact ih (fun L' hL' => h L' (List.mem_cons_of_mem L hL')) st hm

/-! ## Lemmas about sign variants -/

theorem signVariant_pred {E T : Type} {s s' : Source E T}
    (h : SignVariant s s') (L : String) :
    (∀ e, s.predicate L = .error e → s'.predicate L = .error e) ∧
    (∀ r, s.predicate L = .ok r →
      ∃ r', s'.predicate L = .ok r' ∧ |toNumber r'| = |toNumber r|) := by
  obtain ⟨-, -, hp | hp⟩ := h
  · rw [hp]
    exact ⟨fun e he => he, fun r hr => ⟨r, hr, rfl⟩⟩
  · rw [hp]
    constructor
    · intro e he; dsimp only; rw [he]; rfl
    · intro r hr
      dsimp only
      rw [hr]
      exact ⟨negResult r, rfl, by simp [negResult, toNumber, abs_neg]⟩

theorem scanSources_signVariant {E T : Type} (L : String)
    {srcs srcs' : List (Source E T)} (h : List.Forall₂ SignVariant srcs srcs') :
    ∀ st st' : Scan E T, st'.max = st.max → SignVariant st.source st'.source →
      ScanRel (scanSources L srcs st) (scanSources L srcs' st') := by
  induction h with
  | nil => exact fun st st' hm hsv => Or.inr ⟨st, st', rfl, rfl, hm, hsv⟩
  | @cons a b as bs hab _ ih =>
      intro st st' hm hsv
      rw [scanSources_cons, scanSources_cons]
      cases hp : a.predicate L with
      | error e =>
          rw [(signVariant_pred hab L).1 e hp]
          exact Or.inl ⟨e, rfl, rfl⟩
      | ok r =>
          obtain ⟨r', hr', habs⟩ := (signVariant_pred hab L).2 r hp
          rw [hr']
          dsimp only
          rw [habs, hm]
          by_cases hc : |toNumber r| > st.max
          · rw [if_pos hc, if_pos hc]
            exact ih ⟨|toNumber r|, a⟩ ⟨|toNumber r|, b⟩ rfl hab
          · rw [if_neg hc, if_neg hc]
            exact ih st st' hm hsv

theorem scanLocales_signVariant {E T : Type}
    {srcs srcs' : List (Source E T)} (h : List.Forall₂ SignVariant srcs srcs')
    (locales : List String) :
    ∀ st st' : Scan E T, st'.max = st.max → SignVariant st.source st'.source →
      ScanRel (scanLocales srcs locales st) (scanLocales srcs' locales st') := by
  induction locales with
  | nil => exact fun st st' hm hsv => Or.inr ⟨st, st', rfl, rfl, hm, hsv⟩
  | cons l ls ih =>
      intro st st' hm hsv
      rw [scanLocales_cons, scanLocales_cons]
      rcases scanSources_signVariant l h st st' hm hsv with
        ⟨e, he, he'⟩ | ⟨a, b, ha, hb, hm2, hsv2⟩
      · rw [he, he']
        exact Or.inl ⟨e, rfl, rfl⟩
      · rw [ha, hb]
        dsimp only
        rw [hm2]
        by_cases hc : a.max > 0
        · rw [if_pos hc, if_pos hc]
          exact Or.inr ⟨a, b, rfl, rfl, hm2, hsv2⟩
        · rw [if_neg hc, if_neg hc]
          exact ih a b hm2 hsv2

theorem loadTagged_signVariant {E T : Type} {s s' : Source E T}
    (h : SignVariant s s') : loadTagged s' = loadTagged s := by
  obtain ⟨ht, hl, -⟩ := h
  unfold loadTagged
  rw [ht, hl]

/-! ## Lemmas about `memoize` -/

theorem memoizeTrace_eq {E T : Type} (loader : Nat → JSPromise E T) (k : Nat) :
    memoizeTrace loader (k + 1) =
      (List.replicate (k + 1) (loader 0), (some (loader 0), 1)) := by
  induction k with
  | zero => rfl
  | succ k ih =>
      show memoizeTrace loader (k + 1 + 1) = _
      unfold memoizeTrace
      rw [ih]
      show (List.replicate (k + 1) (loader 0) ++ [loader 0], (some (loader 0), 1)) = _
      rw [← List.replicate_succ']

/-! ## A fold lemma for `mean` -/

theorem foldl_add_map {α : Type} (g : α → ℚ) (l : List α) :
    ∀ a : ℚ, l.foldl (fun sum x => sum + g x) a = a + (l.map g).sum := by
  induction l with
  | nil => intro a; simp
  | cons x xs ih =>
      intro a
      simp only [List.foldl_cons, List.map_cons, List.sum_cons, ih, add_assoc]

theorem toNumber_mean (ps : List Predicate) (c : String) :
    toNumber (mean ps c) = (ps.map fun p => toNumber (p c)).sum / (ps.length : ℚ) := by
  show (ps.foldl (fun sum p => sum + toNumber (p c)) 0) / (ps.length : ℚ) = _
  rw [foldl_add_map (fun p => toNumber (p c)) ps 0, zero_add]

/-! ## The claims -/

/-- C1: for a single-locale query in which a source `si` and a
later-registered source `sj` tie in score (`σ` assigns every source the
absolute value of its numeric score for `L`), and that tied score is not
beaten by any source (with `si` the earliest source attaining it),
`resolve` selects `si` — the scan proceeds in registration order and a
later source replaces the current best only on a strictly greater score,
the fallback being index 0. -/
theorem claim1_tie_earlier_registered_wins {E T : Type}
    (R : Internationalization E T) (L : String)
    (l₁ l₂ l₃ : List (Source E T)) (si sj : Source E T) (σ : Source E T → ℚ)
    (hsplit : R.sources = l₁ ++ (si :: (l₂ ++ (sj :: l₃))))
    (hσ : ∀ s ∈ R.sources, ∃ r, s.predicate L = .ok r ∧ |toNumber r| = σ s)
    (_htie : σ si = σ sj)
    (hmax : ∀ s ∈ R.sources, σ s ≤ σ si)
    (hfirst : ∀ s ∈ l₁, σ s < σ si) :
    R.resolve [L] = loadTagged si := by
  have hσnn : ∀ s ∈ R.sources, 0 ≤ σ s := fun s hs => by
    obtain ⟨r, _, habs⟩ := hσ s hs
    rw [← habs]
    exact abs_nonneg _
  have hsi : si ∈ R.sources := by
    rw [hsplit]
    exact List.mem_append_right _ (List.mem_cons_self _ _)
  unfold Internationalization.resolve
  rw [scanLocales_singleton]
  by_cases hpos : 0 < σ si
  · have hl₁ : ∀ s ∈ l₁, ∃ r, s.predicate L = .ok r ∧ |toNumber r| < σ si :=
      fun s hs => by
        obtain ⟨r, hr, habs⟩ := hσ s (by rw [hsplit]; exact List.mem_append_left _ hs)
        exact ⟨r, hr, by rw [habs]; exact hfirst s hs⟩
    obtain ⟨st₁, hscan₁, hlt₁⟩ :=
      scanSources_bound L l₁ (σ si) hl₁ ⟨0, R.fallback⟩ hpos
    obtain ⟨rsi, hrsi, habs_si⟩ := hσ si hsi
    have hrest : ∀ s ∈ l₂ ++ (sj :: l₃), ∃ r, s.predicate L = .ok r ∧
        |toNumber r| ≤ (⟨σ si, si⟩ : Scan E T).max := fun s hs => by
      have hmem : s ∈ R.sources := by
        rw [hsplit]
        exact List.mem_append_right _ (List.mem_cons_of_mem _ hs)
      obtain ⟨r, hr, habs⟩ := hσ s hmem
      exact ⟨r, hr, by rw [habs]; exact hmax s hmem⟩
    have hfin : scanSources L R.sources ⟨0, R.fallback⟩ = .ok ⟨σ si, si⟩ := by
      rw [hsplit, scanSources_append, hscan₁]
      show scanSources L (si :: (l₂ ++ (sj :: l₃))) st₁ = _
      rw [scanSources_cons]
      simp only [hrsi]
      rw [habs_si, if_pos hlt₁]
      exact scanSources_no_update L _ _ hrest
    rw [hfin]
  · have hz : σ si = 0 := le_antisymm (not_lt.mp hpos) (hσnn si hsi)
    have hl₁nil : l₁ = [] := by
      cases hl : l₁ with
      | nil => rfl
      | cons a as =>
          have hamem : a ∈ R.sources := by
            rw [hsplit, hl]
            exact List.mem_append_left _ (List.mem_cons_self a as)
          have ha := hfirst a (by rw [hl]; exact List.mem_cons_self a as)
          rw [hz] at ha
          exact absurd ha (not_lt.mpr (hσnn a hamem))
    subst hl₁nil
    rw [List.nil_append] at hsplit
    have hfb : R.fallback = si := by
      have h' : R.fallback :: R.others = si :: (l₂ ++ (sj :: l₃)) := hsplit
      exact ((List.cons.injEq _ _ _ _).mp h').1
    have hall : ∀ s ∈ R.sources, ∃ r, s.predicate L = .ok r ∧
        |toNumber r| ≤ (⟨0, R.fallback⟩ : Scan E T).max := fun s hs => by
      obtain ⟨r, hr, habs⟩ := hσ s hs
      refine ⟨r, hr, ?_⟩
      show |toNumber r| ≤ 0
      rw [habs, ← hz]
      exact hmax s hs
    rw [scanSources_no_update L R.sources _ hall]
    show loadTagged R.fallback = loadTagged si
    rw [hfb]

/-- C2: if every source scores (absolute) `0` for each locale in `pre`
and some source scores positively for `Li` (all predicates succeeding
there), then the winner is already determined at `Li`: any further
locales `post` are never consulted, even if they would score higher. -/
theorem claim2_first_positive_locale_wins {E T : Type}
    (R : Internationalization E T) (pre : List String) (Li : String)
    (post : List String)
    (hpre : ∀ L ∈ pre, ∀ s ∈ R.sources, ∃ r, s.predicate L = .ok r ∧ |toNumber r| = 0)
    (hok : ∀ s ∈ R.sources, ∃ r, s.predicate Li = .ok r)
    (hpos : ∃ s ∈ R.sources, ∃ r, s.predicate Li = .ok r ∧ 0 < |toNumber r|) :
    R.resolve (pre ++ Li :: post) = R.resolve (pre ++ [Li]) := by
  obtain ⟨st', hscan, _, hbound⟩ := scanSources_allOk Li R.sources hok ⟨0, R.fallback⟩
  have hstpos : 0 < st'.max := by
    obtain ⟨s, hs, r, hr, hp⟩ := hpos
    exact lt_of_lt_of_le hp (hbound s hs r hr)
  have hLi : ∀ rest, scanLocales R.sources (Li :: rest) ⟨0, R.fallback⟩ = .ok st' := by
    intro rest
    rw [scanLocales_cons]
    simp only [hscan]
    rw [if_pos hstpos]
  unfold Internationalization.resolve
  rw [scanLocales_zeros R.sources pre (Li :: post) hpre ⟨0, R.fallback⟩ rfl,
    scanLocales_zeros R.sources pre [Li] hpre ⟨0, R.fallback⟩ rfl,
    hLi post, hLi []]

/-- C3: with an empty preference list, or when every source's predicate
yields score `0` (in absolute value) on every listed locale, `resolve`
returns the fallback's loaded content tagged with the fallback's tag and
does not fail (the fallback's loader is `Sync<T>` and yields `t`). -/
theorem claim3_fallback_on_no_match {E T : Type} (R : Internationalization E T)
    (locales : List String) (t : T)
    (hsync : R.fallback.loader = .ok t)
    (h : locales = [] ∨
      ∀ L ∈ locales, ∀ s ∈ R.sources, ∃ r, s.predicate L = .ok r ∧ |toNumber r| = 0) :
    R.resolve locales = .ok (tag t R.fallback.tag) := by
  have hscan : scanLocales R.sources locales ⟨0, R.fallback⟩ = .ok ⟨0, R.fallback⟩ := by
    rcases h with h | h
    · subst h; rfl
    · have hz := scanLocales_zeros R.sources locales [] h ⟨0, R.fallback⟩ rfl
      rw [List.append_nil] at hz
      exact hz
  unfold Internationalization.resolve
  rw [hscan]
  show loadTagged R.fallback = _
  unfold loadTagged
  rw [hsync]

/-- C4: booleans coerce `true → 1`, `false → 0`, the compared score is
the absolute value of the numeric coercion, and flipping the sign of any
subset of the sources' predicate results (each source kept with its tag
and loader, its predicate either unchanged or returning the negated
number) leaves the result of `resolve` unchanged: a predicate returning
`-x` behaves in selection exactly like one returning `x`. -/
theorem claim4_abs_sign_irrelevant :
    (toNumber (.bool true) = 1 ∧ toNumber (.bool false) = 0 ∧
      ∀ r, |toNumber (negResult r)| = |toNumber r|) ∧
    ∀ (E T : Type) (R R' : Internationalization E T) (locales : List String),
      SignVariant R.fallback R'.fallback →
      List.Forall₂ SignVariant R.others R'.others →
      R'.resolve locales = R.resolve locales := by
  refine ⟨⟨rfl, rfl, fun r => by simp [negResult, toNumber, abs_neg]⟩, ?_⟩
  intro E T R R' locales h1 h2
  have hsrc : List.Forall₂ SignVariant R.sources R'.sources :=
    List.Forall₂.cons h1 h2
  unfold Internationalization.resolve
  rcases scanLocales_signVariant hsrc locales ⟨0, R.fallback⟩ ⟨0, R'.fallback⟩ rfl h1 with
    ⟨e, he, he'⟩ | ⟨a, b, ha, hb, _, hsv⟩
  · rw [he, he']
  · rw [ha, hb]
    show loadTagged b.source = loadTagged a.source
    exact loadTagged_signVariant hsv

/-- C8: a failure raised during scoring propagates out of `resolve`
unchanged, and if scanning succeeds and the winning source's loader
raises or rejects, `resolve` fails with exactly that error — no retry,
no substitution of another source's result, no partial result. -/
theorem claim8_error_propagation {E T : Type} (R : Internationalization E T)
    (locales : List String) :
    (∀ e, scanLocales R.sources locales ⟨0, R.fallback⟩ = .error e →
      R.resolve locales = .error e) ∧
    (∀ st e, scanLocales R.sources locales ⟨0, R.fallback⟩ = .ok st →
      st.source.loader = .error e → R.resolve locales = .error e) := by
  constructor
  · intro e he
    unfold Internationalization.resolve
    rw [he]
  · intro st e hst hl
    unfold Internationalization.resolve
    rw [hst]
    show loadTagged st.source = _
    unfold loadTagged
    rw [hl]

/-- C5: the memoized loader invokes the wrapped loader exactly once over
any positive number of calls — the first call invokes it, and every call
(including ones arriving before the first promise settles; calls are the
consecutive events of the single-threaded trace) returns the identical
first promise, so all callers observe the same eventual result. -/
theorem claim5_memoize_single_invocation {E T : Type}
    (loader : Nat → JSPromise E T) (k : Nat) (hk : 1 ≤ k) :
    (memoizeTrace loader k).2.2 = 1 ∧
      ∀ p ∈ (memoizeTrace loader k).1, p = loader 0 := by
  obtain ⟨k', rfl⟩ : ∃ k', k = k' + 1 := ⟨k - 1, (Nat.succ_pred_eq_of_pos hk).symm⟩
  rw [memoizeTrace_eq]
  exact ⟨rfl, fun p hp => List.eq_of_mem_replicate hp⟩

/-- C10: `memoize` caches failure as well as success — if the first
call's promise rejects, every later call returns that same rejected
promise and the wrapped loader is never invoked again (the invocation
count stays at one): there is no retry after a failed first load. -/
theorem claim10_memoize_caches_failure {E T : Type}
    (loader : Nat → JSPromise E T) (k : Nat) (e : E)
    (hrej : (loader 0).outcome = .error e) (hk : 1 ≤ k) :
    (memoizeTrace loader k).2.2 = 1 ∧
      ∀ p ∈ (memoizeTrace loader k).1, p = loader 0 ∧ p.outcome = .error e := by
  obtain ⟨k', rfl⟩ : ∃ k', k = k' + 1 := ⟨k - 1, (Nat.succ_pred_eq_of_pos hk).symm⟩
  rw [memoizeTrace_eq]
  refine ⟨rfl, fun p hp => ?_⟩
  have hp0 : p = loader 0 := List.eq_of_mem_replicate hp
  exact ⟨hp0, by rw [hp0, hrej]⟩

/-- C6: reading the reserved `Tag`-symbol accessor on `tag(t, v)` yields
exactly `v`; the marker key is distinct from every string key, so the
tag never shadows a payload field, and on an ordinary payload (all keys
plain strings) no payload field can occupy the marker key. -/
theorem claim6_tag_round_trip {V : Type} (t : JSObject V) (v : V) :
    readTag (tagObj t v) = some v ∧
    (∀ s, Key.str s ≠ Key.tagSym ∧ tagObj t v (Key.str s) = t (Key.str s)) ∧
    (ordinaryPayload t → readTag t = none) := by
  refine ⟨?_, ?_, ?_⟩
  · unfold readTag tagObj
    rw [if_pos rfl]
  · intro s
    refine ⟨fun h => Key.noConfusion h, ?_⟩
    unfold tagObj
    rw [if_neg (fun h => Key.noConfusion h)]
  · intro h
    unfold readTag
    cases ho : t Key.tagSym with
    | none => rfl
    | some v' =>
        obtain ⟨s, hs⟩ := h Key.tagSym (by rw [ho]; rfl)
        exact Key.noConfusion hs

/-- C7: for a non-empty list of predicates, `mean` computes the
arithmetic mean of the numeric coercions of the predicates' results; in
particular `mean(startsWith("en"), is("en-US"))` scores `1` on `"en-US"`
and `1/2` on `"en-GB"` (the empty list is outside the contract). -/
theorem claim7_mean_is_arithmetic_mean :
    (∀ (ps : List Predicate) (c : String), ps ≠ [] →
      toNumber (mean ps c) = (ps.map fun p => toNumber (p c)).sum / (ps.length : ℚ)) ∧
    toNumber (mean [startsWith "en", is "en-US"] "en-US") = 1 ∧
    toNumber (mean [startsWith "en", is "en-US"] "en-GB") = 1 / 2 := by
  refine ⟨fun ps c _ => toNumber_mean ps c, ?_, ?_⟩
  · rw [toNumber_mean]
    have h1 : toNumber (startsWith "en" "en-US") = 1 := by decide
    have h2 : toNumber (is "en-US" "en-US") = 1 := by decide
    rw [List.map_cons, List.map_cons, List.map_nil, h1, h2]
    norm_num
  · rw [toNumber_mean]
    have h1 : toNumber (startsWith "en" "en-GB") = 1 := by decide
    have h2 : toNumber (is "en-US" "en-GB") = 0 := by decide
    rw [List.map_cons, List.map_cons, List.map_nil, h1, h2]
    norm_num

/-- C9 (amended): the predicates produced by `startsWith`, `endsWith`,
`is`, `isOneOf`, `weighted` and `mean` are deterministic and side-effect
free, and so is `matches(pattern)` when the pattern carries neither the
global nor the sticky flag; `matches` with a global/sticky pattern is
excluded, since `test` then reads and mutates the pattern's `lastIndex`. -/
theorem claim9_combinators_stateless :
    (∀ pre, Stateless (liftPure (startsWith pre))) ∧
    (∀ suf, Stateless (liftPure (endsWith suf))) ∧
    (∀ expected, Stateless (liftPure (is expected))) ∧
    (∀ cs, Stateless (liftPure (isOneOf cs))) ∧
    (∀ f p, Stateless (liftPure (weighted f p))) ∧
    (∀ ps, Stateless (liftPure (mean ps))) ∧
    (∀ re : RegExp, re.flagGlobal = false → re.flagSticky = false →
      Stateless («matches» re)) := by
  have hpure : ∀ p : Predicate, Stateless (liftPure p) :=
    fun p t st => ⟨rfl, fun st' => rfl⟩
  refine ⟨fun pre => hpure _, fun suf => hpure _, fun expected => hpure _,
    fun cs => hpure _, fun f p => hpure _, fun ps => hpure _, ?_⟩
  intro re hg hy t st
  obtain ⟨p, g, y⟩ := re
  simp only [RegExp.flagGlobal] at hg
  simp only [RegExp.flagSticky] at hy
  subst hg
  subst hy
  unfold «matches» RegExp.test
  simp only [Bool.or_self, Bool.false_eq_true, if_false]
  cases RegExp.search ⟨p, false, false⟩ t.data 0 with
  | none => exact ⟨rfl, fun st' => rfl⟩
  | some me => exact ⟨rfl, fun st' => rfl⟩

/-- C9 (counterexample): `matches(/en/g)` evaluated twice in succession
on the same candidate `"en-US"` returns `true` the first time and
`false` the second, mutating the pattern's `lastIndex` in between — so
the predicate produced by `matches` is neither deterministic across
calls nor side-effect free. -/
theorem claim9_counterexample :
    ((«matches» ⟨.lit "en", true, false⟩) "en-US" 0).1 = .bool true ∧
    ((«matches» ⟨.lit "en", true, false⟩) "en-US"
      ((«matches» ⟨.lit "en", true, false⟩) "en-US" 0).2).1 = .bool false ∧
    ((«matches» ⟨.lit "en", true, false⟩) "en-US" 0).2 ≠ 0 := by
  refine ⟨by decide, by decide, by decide⟩

/-! ## Witnesses: the theorems above applied at concrete inputs -/

theorem demo_frFR_all_zero :
    ∀ s ∈ demo.sources, ∃ r, s.predicate "fr-FR" = .ok r ∧ |toNumber r| = 0 := by
  have hen : |toNumber (mean [startsWith "en", startsWith "en-US"] "fr-FR")| = 0 := by
    rw [toNumber_mean]
    have a1 : toNumber (startsWith "en" "fr-FR") = 0 := by decide
    have a2 : toNumber (startsWith "en-US" "fr-FR") = 0 := by decide
    rw [List.map_cons, List.map_cons, List.map_nil, a1, a2]
    norm_num
  have hzh : |toNumber (mean [startsWith "zh", startsWith "zh-CN"] "fr-FR")| = 0 := by
    rw [toNumber_mean]
    have a1 : toNumber (startsWith "zh" "fr-FR") = 0 := by decide
    have a2 : toNumber (startsWith "zh-CN" "fr-FR") = 0 := by decide
    rw [List.map_cons, List.map_cons, List.map_nil, a1, a2]
    norm_num
  intro s hs
  have hs' : s = enUS ∨ s = zhCN := by
    simpa [demo, Internationalization.sources] using hs
  rcases hs' with rfl | rfl
  · exact ⟨mean [startsWith "en", startsWith "en-US"] "fr-FR", rfl, hen⟩
  · exact ⟨mean [startsWith "zh", startsWith "zh-CN"] "fr-FR", rfl, hzh⟩

theorem claim1_witness : tieDemo.resolve ["en-US"] = loadTagged tieA := by
  refine claim1_tie_earlier_registered_wins tieDemo "en-US" [] [] [] tieA tieB
    (fun _ => 1) rfl ?_ rfl (fun s _ => le_refl 1)
    (fun s hs => absurd hs (List.not_mem_nil s))
  intro s hs
  have hs' : s = tieA ∨ s = tieB := by
    simpa [tieDemo, Internationalization.sources] using hs
  rcases hs' with rfl | rfl
  · exact ⟨startsWith "en" "en-US", rfl, by decide⟩
  · exact ⟨startsWith "en" "en-US", rfl, by decide⟩

theorem claim2_witness :
    demo.resolve (["fr-FR"] ++ "zh-CN" :: ["en-US"]) =
      demo.resolve (["fr-FR"] ++ ["zh-CN"]) := by
  have hpos1 : 0 < |toNumber (mean [startsWith "zh", startsWith "zh-CN"] "zh-CN")| := by
    rw [toNumber_mean]
    have a1 : toNumber (startsWith "zh" "zh-CN") = 1 := by decide
    have a2 : toNumber (startsWith "zh-CN" "zh-CN") = 1 := by decide
    rw [List.map_cons, List.map_cons, List.map_nil, a1, a2, abs_pos]
    norm_num
  refine claim2_first_positive_locale_wins demo ["fr-FR"] "zh-CN" ["en-US"] ?_ ?_ ?_
  · intro L hL
    have hL' : L = "fr-FR" := by simpa using hL
    subst hL'
    exact demo_frFR_all_zero
  · intro s hs
    have hs' : s = enUS ∨ s = zhCN := by
      simpa [demo, Internationalization.sources] using hs
    rcases hs' with rfl | rfl
    · exact ⟨mean [startsWith "en", startsWith "en-US"] "zh-CN", rfl⟩
    · exact ⟨mean [startsWith "zh", startsWith "zh-CN"] "zh-CN", rfl⟩
  · refine ⟨zhCN, ?_, mean [startsWith "zh", startsWith "zh-CN"] "zh-CN", rfl, hpos1⟩
    simp [demo, Internationalization.sources]

theorem claim3_witness : demo.resolve ["fr-FR"] = .ok (tag "Hello!" "en-US") := by
  refine claim3_fallback_on_no_match demo ["fr-FR"] "Hello!" rfl (Or.inr ?_)
  intro L hL
  have hL' : L = "fr-FR" := by simpa using hL
  subst hL'
  exact demo_frFR_all_zero

theorem claim4_witness :
    tieDemoNeg.resolve ["en-US"] = tieDemo.resolve ["en-US"] :=
  claim4_abs_sign_irrelevant.2 String String tieDemo tieDemoNeg ["en-US"]
    ⟨rfl, rfl, Or.inl rfl⟩
    (List.Forall₂.cons ⟨rfl, rfl, Or.inr rfl⟩ List.Forall₂.nil)

theorem claim5_witness :
    1 ≤ 2 ∧ ((memoizeTrace okLoader 2).2.2 = 1 ∧
      ∀ p ∈ (memoizeTrace okLoader 2).1, p = okLoader 0) :=
  ⟨by decide, claim5_memoize_single_invocation okLoader 2 (by decide)⟩

theorem claim6_witness :
    readTag (tagObj helloPayload "en-US") = some "en-US" ∧
    (∀ s, Key.str s ≠ Key.tagSym ∧
      tagObj helloPayload "en-US" (Key.str s) = helloPayload (Key.str s)) ∧
    readTag helloPayload = none := by
  have h := claim6_tag_round_trip helloPayload "en-US"
  have hord : ordinaryPayload helloPayload := by
    intro k hk
    cases k with
    | str s => exact ⟨s, rfl⟩
    | tagSym => exact absurd hk (by decide)
  exact ⟨h.1, h.2.1, h.2.2 hord⟩

theorem claim7_witness :
    toNumber (mean [startsWith "en", is "en-US"] "en-US") =
      (([startsWith "en", is "en-US"].map fun p => toNumber (p "en-US")).sum) /
        (([startsWith "en", is "en-US"] : List Predicate).length : ℚ) :=
  claim7_mean_is_arithmetic_mean.1 [startsWith "en", is "en-US"] "en-US"
    (List.cons_ne_nil _ _)

theorem claim8_witness :
    badPredDemo.resolve ["en"] = .error "predicate boom" ∧
    badLoadDemo.resolve ["en-US"] = .error "loader boom" :=
  ⟨(claim8_error_propagation badPredDemo ["en"]).1 "predicate boom" rfl,
    (claim8_error_propagation badLoadDemo ["en-US"]).2 ⟨1, badLoadSrc⟩
      "loader boom" rfl rfl⟩

theorem claim9_witness :
    Stateless («matches» ⟨.lit "en", false, false⟩) :=
  claim9_combinators_stateless.2.2.2.2.2.2 ⟨.lit "en", false, false⟩ rfl rfl

theorem claim10_witness :
    (memoizeTrace badLoader 2).2.2 = 1 ∧
      ∀ p ∈ (memoizeTrace badLoader 2).1,
        p = badLoader 0 ∧ p.outcome = .error "network down" :=
  claim10_memoize_caches_failure badLoader 2 "network down" rfl (by decide)

end Intee
